import Mathlib

/-!
# Import-order linter (`pkg/imporder/order.go`)

A shallow embedding of the linter's core and proofs about it.

* Go strings are byte sequences, modelled as `List Nat`.
* Code that can raise a Go runtime fault (index or slice out of range, `make`
  with a negative length) returns `Except Fault _`.
* `pass.Report` is modelled by returning the list of reported diagnostics in
  the order they are reported.
* Source line numbers are Go `int`s and are modelled as `Int`.
-/

namespace Imporder

/-! ## Definitions -/

/-- Go `string`: a sequence of bytes. -/
abbrev Str := List Nat

/-- Bytes of an ASCII literal (for ASCII the code points are the UTF-8 bytes). -/
def bytes (s : String) : Str := s.toList.map Char.toNat

/-- Go runtime panics that the embedded code could raise. -/
inductive Fault where
  | indexOutOfRange
  | sliceBoundsOutOfRange
  | makeLenOutOfRange
  deriving DecidableEq, Repr

/-- Equality of results is decidable, so closed instances can be evaluated. -/
instance exceptDecEq {ε α : Type} [DecidableEq ε] [DecidableEq α] : DecidableEq (Except ε α)
  | .ok a, .ok b => if h : a = b then isTrue (by rw [h]) else isFalse (fun e => h (by cases e; rfl))
  | .error a, .error b =>
    if h : a = b then isTrue (by rw [h]) else isFalse (fun e => h (by cases e; rfl))
  | .ok _, .error _ => isFalse (fun e => by cases e)
  | .error _, .ok _ => isFalse (fun e => by cases e)

/-- Source `importType` (order.go:14-20). -/
inductive importType where
  | internal
  | external
  | standard
  deriving DecidableEq, Repr

/-- Go's built-in `<` on strings: byte-wise lexicographic, a proper prefix is smaller. -/
def strLess : Str → Str → Bool
  | [], [] => false
  | [], _ :: _ => true
  | _ :: _, [] => false
  | a :: as, b :: bs => decide (a < b) || (a == b && strLess as bs)

/-- Non-strict order derived from Go's `<`: `a ≤ b` iff not `b < a`. -/
def strLe (a b : Str) : Prop := strLess b a = false

instance strLeDecidable : DecidableRel strLe := fun a b =>
  inferInstanceAs (Decidable (strLess b a = false))

/-- Go `sort.Strings`: sorts increasingly with `Less(i, j) = x[i] < x[j]`.  The library sorts
with insertion sort on short slices and pdqsort on longer ones; as the order is total and
antisymmetric the sorted permutation is unique, so insertion sort models both. -/
def sortStrings (l : List Str) : List Str := List.insertionSort strLe l

/-- Go `strings.HasPrefix(s, prefix)`:
`len(s) >= len(prefix) && s[:len(prefix)] == prefix`. -/
def hasPrefix (s pre : Str) : Bool :=
  decide (pre.length ≤ s.length) && (s.take pre.length == pre)

/-- Loop of Go `strings.Split(s, sep)` for a one-byte separator: `cur` holds the bytes of the
piece being read, in reverse. -/
def splitGo (sep : Nat) : Str → Str → List Str
  | cur, [] => [cur.reverse]
  | cur, c :: cs =>
    if c = sep then cur.reverse :: splitGo sep [] cs else splitGo sep (c :: cur) cs

/-- Go `strings.Split(s, sep)` for a one-byte separator. -/
def split (s : Str) (sep : Nat) : List Str := splitGo sep [] s

/-- Go `strings.Contains(s, substr)` for a one-byte `substr`. -/
def containsByte (s : Str) (b : Nat) : Bool := s.contains b

/-- Go `strings.Trim(s, cutset)` for a one-byte cutset: strips every leading and trailing
occurrence of the byte. -/
def trim (s : Str) (b : Nat) : Str :=
  ((s.dropWhile (· == b)).reverse.dropWhile (· == b)).reverse

/-- Go `strings.Join(elems, sep)`. -/
def join (elems : List Str) (sep : Str) : Str := sep.intercalate elems

/-- Go index expression `a[i]` with its bounds check. -/
def index {α : Type} (a : List α) (i : Int) : Except Fault α :=
  if i < 0 then .error .indexOutOfRange
  else match a.get? i.toNat with
    | some v => .ok v
    | none => .error .indexOutOfRange

/-- Go indexed assignment `a[i] = v` with its bounds check. -/
def setIndex {α : Type} (a : List α) (i : Int) (v : α) : Except Fault (List α) :=
  if i < 0 ∨ (a.length : Int) ≤ i then .error .indexOutOfRange
  else .ok (a.set i.toNat v)

/-- Go slice expression `a[:hi]` (here `hi` never exceeds `len(a)`). -/
def sliceTo {α : Type} (a : List α) (hi : Int) : Except Fault (List α) :=
  if hi < 0 ∨ (a.length : Int) < hi then .error .sliceBoundsOutOfRange
  else .ok (a.take hi.toNat)

/-- Go `make([]string, n)`: `n` empty strings. -/
def makeStrings (n : Int) : Except Fault (List Str) :=
  if n < 0 then .error .makeLenOutOfRange else .ok (List.replicate n.toNat [])

/-- Source `impLinter.getType` (order.go:27-39). -/
def getType (baseImport : Str) (inp : Str) : Except Fault importType :=
  if hasPrefix inp baseImport then .ok .internal
  else do
    let parts := split inp 47
    let p0 ← index parts 0
    if containsByte p0 46 then .ok .external else .ok .standard

/-- The three slices `project`, `global`, `std` of `sortImports`. -/
structure Buckets where
  project : List Str
  global : List Str
  std : List Str
  deriving DecidableEq, Repr

/-- The classification loop of `sortImports` (order.go:48-61). -/
def sortImportsLoop (baseImport : Str) : List Str → Buckets → Except Fault Buckets
  | [], b => .ok b
  | imp :: rest, b =>
    if imp = [] then sortImportsLoop baseImport rest b
    else do
      let t ← getType baseImport imp
      match t with
      | .internal => sortImportsLoop baseImport rest { b with project := b.project ++ [imp] }
      | .external => sortImportsLoop baseImport rest { b with global := b.global ++ [imp] }
      | .standard => sortImportsLoop baseImport rest { b with std := b.std ++ [imp] }

/-- Source `impLinter.sortImports` (order.go:41-87). -/
def sortImports (baseImport : Str) (imps : List Str) : Except Fault (List Str) := do
  let b ← sortImportsLoop baseImport imps ⟨[], [], []⟩
  let total := b.std.length + b.project.length + b.global.length
  if total = 0 then .ok []
  else
    let result : List Str := []
    let result := if b.std.length > 0 then result ++ sortStrings b.std ++ [[]] else result
    let result := if b.global.length > 0 then result ++ sortStrings b.global ++ [[]] else result
    let result := if b.project.length > 0 then result ++ sortStrings b.project ++ [[]] else result
    sliceTo result ((result.length : Int) - 1)

/-- The part of `ast.ImportSpec` the linter reads: the resolved line of `spec.Pos()` and the
literal text `Path.Value`, quote delimiters included. -/
structure ImportSpec where
  line : Int
  pathValue : Str
  deriving DecidableEq, Repr

/-- Go `token.Token` of a `GenDecl`. -/
inductive Token where
  | IMPORT
  | CONST
  | TYPE
  | VAR
  deriving DecidableEq, Repr

/-- The part of `ast.GenDecl` the linter reads.  `lparen` and `rparen` are `token.Pos` values
(`0` is `token.NoPos`); `lparenLine` and `rparenLine` are the lines that
`Fset.Position` resolves them to; `pos` and `fin` are `block.Pos()` and `block.End()`. -/
structure GenDecl where
  tok : Token
  pos : Nat
  fin : Nat
  lparen : Nat
  rparen : Nat
  lparenLine : Int
  rparenLine : Int
  specs : List ImportSpec
  deriving DecidableEq, Repr

/-- Go `analysis.Diagnostic` as filled in by the linter. -/
structure Diagnostic where
  pos : Nat
  fin : Nat
  category : Str
  message : Str
  deriving DecidableEq, Repr

/-- Go `token.Pos.IsValid`. -/
def isValid (p : Nat) : Bool := decide (p ≠ 0)

/-- Source `impLinter.extractImport` (order.go:89-92). -/
def extractImport (spec : ImportSpec) : Str := trim spec.pathValue 34

/-- The diagnostic of order.go:105-110. -/
def parenDiagnostic (block : GenDecl) : Diagnostic :=
  { pos := block.pos, fin := block.fin, category := bytes "import",
    message := bytes "incorrect paren position" }

/-- The diagnostic of order.go:125-130 and order.go:136-141. -/
def shouldBeDiagnostic (block : GenDecl) (sorted : List Str) : Diagnostic :=
  { pos := block.pos, fin := block.fin, category := bytes "import",
    message := bytes "should be \n" ++ join sorted [10] }

/-- The diagnostic of order.go:167-172. -/
def multipleDiagnostic (block : GenDecl) : Diagnostic :=
  { pos := block.pos, fin := block.fin, category := bytes "import",
    message := bytes "multiple import" }

/-- The slot-filling loop of `checkImportOrder` (order.go:116-120). -/
def fillImports (firstLine : Int) : List ImportSpec → List Str → Except Fault (List Str)
  | [], imports => .ok imports
  | spec :: rest, imports => do
    let idx := spec.line - firstLine - 1
    let imports ← setIndex imports idx (extractImport spec)
    fillImports firstLine rest imports

/-- The as-written sequence of `checkImportOrder` (order.go:115-120). -/
def buildImports (block : GenDecl) : Except Fault (List Str) := do
  let size := block.rparenLine - block.lparenLine
  let imports ← makeStrings (size - 1)
  fillImports block.lparenLine block.specs imports

/-- The element-wise comparison loop of `checkImportOrder` (order.go:134-145); `i` is the
index of the head of `sorted` in the whole slice. -/
def compareLoop (block : GenDecl) (all imports : List Str) :
    List Str → Int → Except Fault (List Diagnostic)
  | [], _ => .ok []
  | s :: rest, i => do
    let w ← index imports i
    if s ≠ w then .ok [shouldBeDiagnostic block all]
    else compareLoop block all imports rest (i + 1)

/-- The comparison part of `checkImportOrder` (order.go:122-146) on the as-written
sequence `imports`. -/
def compareImports (baseImport : Str) (block : GenDecl) (imports : List Str) :
    Except Fault (List Diagnostic) := do
  let sorted ← sortImports baseImport imports
  if sorted.length ≠ imports.length then .ok [shouldBeDiagnostic block sorted]
  else compareLoop block sorted imports sorted 0

/-- Source `impLinter.checkImportOrder` (order.go:94-146). -/
def checkImportOrder (baseImport : Str) (block : GenDecl) : Except Fault (List Diagnostic) :=
  if !isValid block.lparen then .ok []
  else
    let count : Int := block.specs.length
    let size := block.rparenLine - block.lparenLine
    if size - count < 1 then .ok [parenDiagnostic block]
    else do
      let imports ← buildImports block
      compareImports baseImport block imports

/-- The part of `ast.File` the linter reads: the `GenDecl` nodes in the order `ast.Inspect`
visits them (source order). -/
structure File where
  genDecls : List GenDecl
  deriving DecidableEq, Repr

/-- The `ast.Inspect` callback of `findImportBlock` (order.go:150-159): collects the
declarations whose token is `IMPORT`. -/
def collectBlocks (fl : File) : List GenDecl :=
  fl.genDecls.filter (fun t => t.tok = Token.IMPORT)

/-- The reporting loop `for b := 1; b < len(blocks); b++` (order.go:166-173). -/
def reportMultiple (blocks : List GenDecl) : List Diagnostic :=
  (blocks.drop 1).map multipleDiagnostic

/-- Source `impLinter.findImportBlock` (order.go:148-178). -/
def findImportBlock (baseImport : Str) (fl : File) : Except Fault (List Diagnostic) :=
  let blocks := collectBlocks fl
  if blocks.length = 0 then .ok []
  else if blocks.length > 1 then .ok (reportMultiple blocks)
  else do
    let b0 ← index blocks 0
    checkImportOrder baseImport b0

/-- Source `impLinter.findImports` (order.go:180-187): one pass over the files of the
package, accumulating the diagnostics. -/
def findImports (baseImport : Str) : List File → Except Fault (List Diagnostic)
  | [] => .ok []
  | fl :: rest => do
    let d ← findImportBlock baseImport fl
    let ds ← findImports baseImport rest
    .ok (d ++ ds)

/-- Source `impLinter.process` (order.go:189-192): the diagnostics reported and the returned
`error` value (`none` is Go `nil`). -/
def process (baseImport : Str) (files : List File) :
    Except Fault (List Diagnostic × Option Str) := do
  let ds ← findImports baseImport files
  .ok (ds, none)

/-! ### Specification-side definitions -/

/-- The part of a path before its first `/` (the whole path when it has none). -/
def firstSegment (p : Str) : Str := p.takeWhile (· ≠ 47)

/-- Position of a category in the canonical order standard, external, internal. -/
def rank : importType → Nat
  | .standard => 0
  | .external => 1
  | .internal => 2

/-- Whether some non-placeholder entry of `x` has category `t`. -/
def hasCategory (baseImport : Str) (x : List Str) (t : importType) : Bool :=
  x.any (fun p => decide (p ≠ []) && decide (getType baseImport p = .ok t))

/-- Number of categories that have at least one non-placeholder entry in `x`. -/
def nonEmptyCategories (baseImport : Str) (x : List Str) : Nat :=
  ([importType.standard, .external, .internal].filter (hasCategory baseImport x)).length

/-- The import declarations of a file, in source order: the declarations whose keyword is
`import`. -/
def importDecls : List GenDecl → List GenDecl
  | [] => []
  | d :: rest =>
    match d.tok with
    | .IMPORT => d :: importDecls rest
    | .CONST => importDecls rest
    | .TYPE => importDecls rest
    | .VAR => importDecls rest

/-- The invariant of a `GenDecl` built by go/parser (`parseGenDecl`): the two parentheses
are set together, `Rparen` being the result of `p.expect(token.RPAREN)`, which is a position
even on error, and an unparenthesized declaration has `token.NoPos` for both. -/
def parsed (block : GenDecl) : Bool := isValid block.lparen == isValid block.rparen

/-- The non-placeholder entries of a list, in order (the list with placeholders removed). -/
def nonEmpty (x : List Str) : List Str := x.filter (fun p => decide (p ≠ []))

/-! ### Concrete inputs -/

/-- The out-of-order block of the specification: `"os"` on line 4 and `"fmt"` on line 5, the
parentheses on lines 3 and 6. -/
def outOfOrderBlock : GenDecl :=
  { tok := .IMPORT, pos := 14, fin := 36, lparen := 21, rparen := 35,
    lparenLine := 3, rparenLine := 6,
    specs := [⟨4, bytes "\"os\""⟩, ⟨5, bytes "\"fmt\""⟩] }

/-- The missing-separator block of the specification: `"fmt"` on line 4 and `"myorg/proj"`
on line 5 with no blank line between them, the parentheses on lines 3 and 6. -/
def missingSeparatorBlock : GenDecl :=
  { tok := .IMPORT, pos := 14, fin := 45, lparen := 21, rparen := 44,
    lparenLine := 3, rparenLine := 6,
    specs := [⟨4, bytes "\"fmt\""⟩, ⟨5, bytes "\"myorg/proj\""⟩] }

/-- The declaration whose first line is `import ("fmt"` (line 3), followed by a blank line
and the closing parenthesis on line 5. -/
def entryOnOpenLineBlock : GenDecl :=
  { tok := .IMPORT, pos := 14, fin := 30, lparen := 21, rparen := 29,
    lparenLine := 3, rparenLine := 5, specs := [⟨3, bytes "\"fmt\""⟩] }

/-- A file whose only import declaration is `entryOnOpenLineBlock`. -/
def entryOnOpenLineFile : File := { genDecls := [entryOnOpenLineBlock] }

/-- A hand-built declaration, one that go/parser does not produce, with a valid opening
parenthesis on line 3 and no closing one: `Rparen` is `token.NoPos`, which `Fset.Position`
resolves to line 0. -/
def unclosedBlock : GenDecl :=
  { tok := .IMPORT, pos := 14, fin := 28, lparen := 21, rparen := 0,
    lparenLine := 3, rparenLine := 0, specs := [⟨4, bytes "\"fmt\""⟩] }

/-- The unparenthesized declaration `import "fmt"` on line 3. -/
def singleImport : GenDecl :=
  { tok := .IMPORT, pos := 14, fin := 26, lparen := 0, rparen := 0,
    lparenLine := 0, rparenLine := 0, specs := [⟨3, bytes "\"fmt\""⟩] }

/-- The entry written with a raw literal, `myorg/proj` between back quotes (byte 96), on
line 4. -/
def rawSpec : ImportSpec := ⟨4, [96] ++ bytes "myorg/proj" ++ [96]⟩


/-- The already-correct block of the specification: `"fmt"`, a blank line,
`"github.com/x/y"`, a blank line and `"myorg/proj/sub"` on lines 4 to 8, the parentheses on
lines 3 and 9. -/
def canonicalBlock : GenDecl :=
  { tok := .IMPORT, pos := 14, fin := 75, lparen := 21, rparen := 74,
    lparenLine := 3, rparenLine := 9,
    specs := [⟨4, bytes "\"fmt\""⟩, ⟨6, bytes "\"github.com/x/y\""⟩,
      ⟨8, bytes "\"myorg/proj/sub\""⟩] }

/-- A block with the opening parenthesis on line 10, the closing one on line 12 and three
entries, `import ("a"`, `"b"`, `"c")`. -/
def crowdedBlock : GenDecl :=
  { tok := .IMPORT, pos := 120, fin := 141, lparen := 127, rparen := 140,
    lparenLine := 10, rparenLine := 12,
    specs := [⟨10, bytes "\"a\""⟩, ⟨11, bytes "\"b\""⟩, ⟨12, bytes "\"c\""⟩] }

/-- The empty declaration `import ()` written on line 3. -/
def emptyOneLineBlock : GenDecl :=
  { tok := .IMPORT, pos := 14, fin := 23, lparen := 21, rparen := 22,
    lparenLine := 3, rparenLine := 3, specs := [] }

/-- A file with two import declarations, each correct when taken alone, and a `var`
declaration between them. -/
def twoBlockFile : File :=
  { genDecls :=
      [ { tok := .IMPORT, pos := 14, fin := 32, lparen := 21, rparen := 31,
          lparenLine := 3, rparenLine := 5, specs := [⟨4, bytes "\"fmt\""⟩] },
        { tok := .VAR, pos := 34, fin := 43, lparen := 0, rparen := 0,
          lparenLine := 0, rparenLine := 0, specs := [] },
        { tok := .IMPORT, pos := 45, fin := 62, lparen := 52, rparen := 61,
          lparenLine := 9, rparenLine := 11, specs := [⟨10, bytes "\"os\""⟩] } ] }

/-! ### Closed forms used in the proofs -/

/-- Closed form of `getType`: the category it returns (`getType_eq`). -/
def classOf (baseImport p : Str) : importType :=
  if baseImport <+: p then .internal
  else if 46 ∈ firstSegment p then .external else .standard

/-- The non-placeholder entries of `x` of category `t`, in input order. -/
def bucket (baseImport : Str) (t : importType) (x : List Str) : List Str :=
  x.filter (fun p => decide (p ≠ []) && decide (classOf baseImport p = t))

/-- The concatenation step of `sortImports` (order.go:67-86) on already sorted groups. -/
def assemble (S G P : List Str) : List Str :=
  ((if S = [] then [] else S ++ [[]]) ++ (if G = [] then [] else G ++ [[]]) ++
    (if P = [] then [] else P ++ [[]])).dropLast

/-- Number of non-empty lists among three. -/
def nonEmptyCount (S G P : List Str) : Nat :=
  (if S = [] then 0 else 1) + (if G = [] then 0 else 1) + (if P = [] then 0 else 1)

/-- Closed form of `sortImports` (`sortImports_eq`). -/
def canonical (baseImport : Str) (x : List Str) : List Str :=
  assemble (sortStrings (bucket baseImport .standard x))
    (sortStrings (bucket baseImport .external x))
    (sortStrings (bucket baseImport .internal x))

/-! ## Library models: strings and sorting -/

theorem strLess_cons (a b : Nat) (as bs : Str) :
    strLess (a :: as) (b :: bs) = true ↔ a < b ∨ (a = b ∧ strLess as bs = true) := by
  simp [strLess]

theorem strLess_asymm : ∀ a b : Str, strLess a b = true → strLess b a = false
  | [], [] => by simp [strLess]
  | [], _ :: _ => by simp [strLess]
  | _ :: _, [] => by simp [strLess]
  | a :: as, b :: bs => by
    intro h
    rw [strLess_cons] at h
    rw [← Bool.not_eq_true, strLess_cons]
    rintro (h2 | ⟨h2, h3⟩)
    · rcases h with h | ⟨h, _⟩ <;> omega
    · rcases h with h | ⟨_, h⟩
      · omega
      · have := strLess_asymm as bs h
        rw [h3] at this
        exact Bool.noConfusion this

theorem strLe_total (a b : Str) : strLe a b ∨ strLe b a := by
  unfold strLe
  by_cases h : strLess b a = true
  · exact Or.inr (strLess_asymm b a h)
  · exact Or.inl (by simpa using h)

theorem strLe_refl (a : Str) : strLe a a := by
  rcases strLe_total a a with h | h <;> exact h

theorem strLe_trans (a b c : Str) : strLe a b → strLe b c → strLe a c := by
  induction a generalizing b c with
  | nil => intro _ _; cases c <;> simp [strLe, strLess]
  | cons a as ih =>
    intro h1 h2
    cases b with
    | nil => simp [strLe, strLess] at h1
    | cons b bs =>
      cases c with
      | nil => simp [strLe, strLess] at h2
      | cons c cs =>
        unfold strLe at *
        rw [← Bool.not_eq_true, strLess_cons] at *
        rintro (h | ⟨h, h3⟩)
        · apply h2
          by_cases hcb : c < b
          · exact Or.inl hcb
          · exfalso; apply h1
            left; omega
        · subst h
          by_cases hcb : c = b
          · subst hcb
            have := ih bs cs (by simpa using fun h => h1 (Or.inr ⟨rfl, h⟩))
              (by simpa using fun h => h2 (Or.inr ⟨rfl, h⟩))
            rw [h3] at this
            exact Bool.noConfusion this
          · by_cases hlt : c < b
            · exact h2 (Or.inl hlt)
            · exact h1 (Or.inl (by omega))

theorem strLe_antisymm : ∀ a b : Str, strLe a b → strLe b a → a = b
  | [], [] => by simp
  | [], _ :: _ => by simp [strLe, strLess]
  | _ :: _, [] => by simp [strLe, strLess]
  | a :: as, b :: bs => by
    intro h1 h2
    unfold strLe at *
    rw [← Bool.not_eq_true, strLess_cons] at *
    have hab : a = b := by
      by_contra hne
      rcases Nat.lt_or_gt_of_ne hne with h | h
      · exact h2 (Or.inl h)
      · exact h1 (Or.inl h)
    subst hab
    have := strLe_antisymm as bs (by simpa [strLe] using fun h => h1 (Or.inr ⟨rfl, h⟩))
      (by simpa [strLe] using fun h => h2 (Or.inr ⟨rfl, h⟩))
    rw [this]

instance strLe_isTotal : IsTotal Str strLe := ⟨strLe_total⟩
instance strLe_isTrans : IsTrans Str strLe := ⟨strLe_trans⟩
instance strLe_isAntisymm : IsAntisymm Str strLe := ⟨strLe_antisymm⟩

theorem sortStrings_sorted (l : List Str) : (sortStrings l).Sorted strLe :=
  List.sorted_insertionSort strLe l

theorem sortStrings_perm (l : List Str) : (sortStrings l).Perm l :=
  List.perm_insertionSort strLe l

theorem sortStrings_of_sorted {l : List Str} (h : l.Sorted strLe) : sortStrings l = l :=
  h.insertionSort_eq

theorem hasPrefix_iff (s pre : Str) : hasPrefix s pre = true ↔ pre <+: s := by
  unfold hasPrefix
  rw [List.prefix_iff_eq_take]
  constructor
  · intro h
    simp only [Bool.and_eq_true, decide_eq_true_eq, beq_iff_eq] at h
    exact h.2.symm
  · intro h
    simp only [Bool.and_eq_true, decide_eq_true_eq, beq_iff_eq]
    refine ⟨?_, h.symm⟩
    have := congrArg List.length h
    simp only [List.length_take] at this
    omega

theorem splitGo_eq_cons (sep : Nat) (s cur : Str) :
    ∃ rest, splitGo sep cur s = (cur.reverse ++ s.takeWhile (· ≠ sep)) :: rest := by
  induction s generalizing cur with
  | nil => exact ⟨[], by simp [splitGo]⟩
  | cons c cs ih =>
    by_cases hc : c = sep
    · exact ⟨splitGo sep [] cs, by simp [splitGo, hc]⟩
    · obtain ⟨rest, hr⟩ := ih (c :: cur)
      exact ⟨rest, by simp [splitGo, hc, hr]⟩

theorem split_eq_cons (p : Str) : ∃ rest, split p 47 = firstSegment p :: rest := by
  obtain ⟨rest, hr⟩ := splitGo_eq_cons 47 p []
  exact ⟨rest, by simpa [split, firstSegment] using hr⟩

theorem getType_eq (baseImport p : Str) : getType baseImport p = .ok (classOf baseImport p) := by
  unfold getType classOf
  by_cases h : baseImport <+: p
  · simp [(hasPrefix_iff p baseImport).2 h, h]
  · have h2 : hasPrefix p baseImport = false := by
      rw [← Bool.not_eq_true, hasPrefix_iff]; exact h
    obtain ⟨rest, hr⟩ := split_eq_cons p
    simp only [h2, hr, index, h, if_false]
    by_cases hd : 46 ∈ firstSegment p
    · simp [containsByte, hd, bind, Except.bind]
    · simp [containsByte, hd, bind, Except.bind]

/-! ## Closed form of `sortImports` -/

theorem bucket_nil (baseImport : Str) (t : importType) : bucket baseImport t [] = [] := rfl

theorem bucket_cons_nil (baseImport : Str) (t : importType) (x : List Str) :
    bucket baseImport t ([] :: x) = bucket baseImport t x := by
  simp [bucket]

theorem bucket_cons (baseImport : Str) (t : importType) (p : Str) (x : List Str) (hp : p ≠ []) :
    bucket baseImport t (p :: x) =
      if classOf baseImport p = t then p :: bucket baseImport t x else bucket baseImport t x := by
  simp [bucket, List.filter_cons, hp]

theorem mem_bucket {baseImport : Str} {t : importType} {x : List Str} {p : Str} :
    p ∈ bucket baseImport t x ↔ p ∈ x ∧ p ≠ [] ∧ classOf baseImport p = t := by
  simp [bucket]

theorem sortImportsLoop_eq (baseImport : Str) (imps : List Str) (b : Buckets) :
    sortImportsLoop baseImport imps b =
      .ok ⟨b.project ++ bucket baseImport .internal imps,
           b.global ++ bucket baseImport .external imps,
           b.std ++ bucket baseImport .standard imps⟩ := by
  induction imps generalizing b with
  | nil => simp [sortImportsLoop, bucket_nil]
  | cons imp rest ih =>
    by_cases h : imp = []
    · subst h
      simp [sortImportsLoop, ih, bucket_cons_nil]
    · rw [sortImportsLoop, if_neg h, getType_eq]
      simp only [bind, Except.bind]
      cases hc : classOf baseImport imp <;>
        simp [ih, bucket_cons _ _ _ _ h, hc]

theorem sortImports_eq (baseImport : Str) (imps : List Str) :
    sortImports baseImport imps = .ok (canonical baseImport imps) := by
  unfold sortImports canonical assemble
  rw [sortImportsLoop_eq]
  simp only [bind, Except.bind, List.nil_append]
  generalize hS : bucket baseImport .standard imps = S
  generalize hG : bucket baseImport .external imps = G
  generalize hP : bucket baseImport .internal imps = P
  have hlen : ∀ l : List Str, sortStrings l = [] ↔ l = [] := by
    intro l
    rw [← List.length_eq_zero, ← List.length_eq_zero (l := l)]
    simp [sortStrings, List.length_insertionSort]
  have hpos : ∀ l : List Str, l.length > 0 ↔ ¬ l = [] := by
    intro l; rw [← List.length_eq_zero]; omega
  by_cases h0 : S.length + P.length + G.length = 0
  · have h1 : S = [] := List.length_eq_zero.1 (by omega)
    have h2 : P = [] := List.length_eq_zero.1 (by omega)
    have h3 : G = [] := List.length_eq_zero.1 (by omega)
    subst h1 h2 h3
    simp [sortStrings]
  · rw [if_neg h0]
    simp only [hpos, hlen, ite_not]
    have hform : (if P = [] then
          if G = [] then if S = [] then [] else sortStrings S ++ [[]]
          else (if S = [] then [] else sortStrings S ++ [[]]) ++ sortStrings G ++ [[]]
        else
          (if G = [] then if S = [] then [] else sortStrings S ++ [[]]
              else (if S = [] then [] else sortStrings S ++ [[]]) ++ sortStrings G ++ [[]]) ++
              sortStrings P ++ [[]] : List Str) =
        (if S = [] then [] else sortStrings S ++ [[]]) ++
          (if G = [] then [] else sortStrings G ++ [[]]) ++
          (if P = [] then [] else sortStrings P ++ [[]]) := by
      split_ifs <;> simp
    rw [hform]
    generalize hR : ((if S = [] then [] else sortStrings S ++ [[]]) ++
        (if G = [] then [] else sortStrings G ++ [[]]) ++
        (if P = [] then [] else sortStrings P ++ [[]]) : List Str) = R
    have hRpos : 0 < R.length := by
      rw [← hR]
      by_cases h1 : S = []
      · by_cases h3 : G = []
        · by_cases h2 : P = []
          · subst h1 h2 h3; simp at h0
          · simp [h2]
        · simp [h3]
      · simp [h1]
    unfold sliceTo
    rw [if_neg (by omega), List.dropLast_eq_take]
    congr 2
    omega

theorem dropLast_of_eq_concat {α : Type} {l t : List α} {a : α} (h : l = t ++ [a]) :
    l.dropLast = t := by
  rw [h, List.dropLast_concat]

theorem assemble_eq (S G P : List Str) :
    assemble S G P =
      S ++ ((if S ≠ [] ∧ (G ≠ [] ∨ P ≠ []) then [[]] else []) ++
        (G ++ ((if G ≠ [] ∧ P ≠ [] then [[]] else []) ++ P))) := by
  unfold assemble
  by_cases h1 : S = [] <;> by_cases h2 : G = [] <;> by_cases h3 : P = [] <;>
    first
    | (simp [h1, h2, h3]; done)
    | (apply dropLast_of_eq_concat (a := []); simp [h1, h2, h3])

theorem chain_assemble {R : Str → Str → Prop} {S G P : List Str}
    (hS : S.Chain' R) (hG : G.Chain' R) (hP : P.Chain' R)
    (hsep : ∀ a ∈ S ++ (G ++ P), R a [] ∧ R [] a) : (assemble S G P).Chain' R := by
  rw [assemble_eq]
  have hl : ∀ l : List Str, (∀ a ∈ l, R a [] ∧ R [] a) →
      (∀ x, l.getLast? = some x → R x []) ∧ (∀ y, l.head? = some y → R [] y) := by
    intro l hl
    exact ⟨fun x hx => (hl x (List.mem_of_mem_getLast? hx)).1,
      fun y hy => (hl y (List.mem_of_mem_head? hy)).2⟩
  obtain ⟨hS1, -⟩ := hl S (fun a ha => hsep a (by simp [ha]))
  obtain ⟨hG1, hG2⟩ := hl G (fun a ha => hsep a (by simp [ha]))
  obtain ⟨-, hP2⟩ := hl P (fun a ha => hsep a (by simp [ha]))
  by_cases h1 : S = [] <;> by_cases h2 : G = [] <;> by_cases h3 : P = [] <;>
    simp [h1, h2, h3, List.chain'_append, List.chain'_cons', hS, hG, hP] <;>
    tauto

theorem pairwise_assemble {R : Str → Str → Prop} {S G P : List Str}
    (hS : S.Pairwise R) (hG : G.Pairwise R) (hP : P.Pairwise R)
    (hSG : ∀ a ∈ S, ∀ b ∈ G, R a b) (hSP : ∀ a ∈ S, ∀ b ∈ P, R a b)
    (hGP : ∀ a ∈ G, ∀ b ∈ P, R a b)
    (hsep : ∀ a ∈ S ++ (G ++ P), R a [] ∧ R [] a) (h0 : R [] []) :
    (assemble S G P).Pairwise R := by
  rw [assemble_eq]
  have hs1 : ∀ a ∈ S, R a [] := fun a ha => (hsep a (by simp [ha])).1
  have hg1 : ∀ a ∈ G, R a [] := fun a ha => (hsep a (by simp [ha])).1
  have hg2 : ∀ a ∈ G, R [] a := fun a ha => (hsep a (by simp [ha])).2
  have hp2 : ∀ a ∈ P, R [] a := fun a ha => (hsep a (by simp [ha])).2
  by_cases h1 : S = [] <;> by_cases h2 : G = [] <;> by_cases h3 : P = [] <;>
    simp [h1, h2, h3, List.pairwise_append, hS, hG, hP] <;>
    aesop

theorem mem_sortStrings {l : List Str} {a : Str} : a ∈ sortStrings l ↔ a ∈ l :=
  (sortStrings_perm l).mem_iff

theorem sortStrings_eq_nil {l : List Str} : sortStrings l = [] ↔ l = [] := by
  rw [← List.length_eq_zero, ← List.length_eq_zero (l := l), (sortStrings_perm l).length_eq]

theorem mem_sorted_bucket {baseImport : Str} {t : importType} {x : List Str} {a : Str}
    (h : a ∈ sortStrings (bucket baseImport t x)) :
    a ∈ x ∧ a ≠ [] ∧ classOf baseImport a = t :=
  mem_bucket.1 (mem_sortStrings.1 h)

theorem mem_assemble {S G P : List Str} {a : Str} (h : a ∈ assemble S G P) (ha : a ≠ []) :
    a ∈ S ∨ a ∈ G ∨ a ∈ P := by
  rw [assemble_eq] at h
  simp only [List.mem_append] at h
  rcases h with h | h | h | h | h
  · exact Or.inl h
  · split_ifs at h <;> simp at h; exact absurd h ha
  · exact Or.inr (Or.inl h)
  · split_ifs at h <;> simp at h; exact absurd h ha
  · exact Or.inr (Or.inr h)

theorem mem_canonical {baseImport : Str} {x : List Str} {a : Str}
    (h : a ∈ canonical baseImport x) (ha : a ≠ []) : a ∈ x := by
  rcases mem_assemble h ha with h | h | h <;> exact (mem_sorted_bucket h).1

theorem head_assemble {S G P : List Str} (hS : [] ∉ S) (hG : [] ∉ G) (hP : [] ∉ P) :
    (assemble S G P).head? ≠ some [] := by
  rw [assemble_eq]
  intro h
  have hh : ∀ l : List Str, [] ∉ l → l.head? ≠ some [] :=
    fun l hl e => hl (List.mem_of_mem_head? e)
  by_cases h1 : S = [] <;> by_cases h2 : G = [] <;> by_cases h3 : P = [] <;>
    simp [h1, h2, h3, List.head?_append] at h
  all_goals first | exact hh S hS h | exact hh G hG h | exact hh P hP h

theorem getLast_assemble {S G P : List Str} (hS : [] ∉ S) (hG : [] ∉ G) (hP : [] ∉ P) :
    (assemble S G P).getLast? ≠ some [] := by
  rw [assemble_eq, ← List.head?_reverse]
  intro h
  have hh : ∀ l : List Str, [] ∉ l → l.reverse.head? ≠ some [] :=
    fun l hl e => hl (List.mem_reverse.1 (List.mem_of_mem_head? e))
  by_cases h1 : S = [] <;> by_cases h2 : G = [] <;> by_cases h3 : P = [] <;>
    simp [h1, h2, h3, List.head?_append, -List.head?_reverse] at h
  all_goals first | exact hh S hS h | exact hh G hG h | exact hh P hP h

theorem count_assemble {S G P : List Str} (hS : [] ∉ S) (hG : [] ∉ G) (hP : [] ∉ P) :
    (assemble S G P).count [] = nonEmptyCount S G P - 1 := by
  rw [assemble_eq]
  unfold nonEmptyCount
  have h1 := List.count_eq_zero.2 hS
  have h2 := List.count_eq_zero.2 hG
  have h3 := List.count_eq_zero.2 hP
  by_cases h1 : S = [] <;> by_cases h2 : G = [] <;> by_cases h3 : P = [] <;>
    simp [*, List.count_append, List.count_cons]

theorem bucket_append (baseImport : Str) (t : importType) (x y : List Str) :
    bucket baseImport t (x ++ y) = bucket baseImport t x ++ bucket baseImport t y := by
  simp [bucket]

theorem bucket_eq_self {baseImport : Str} {t : importType} {x : List Str}
    (h : ∀ a ∈ x, a ≠ [] ∧ classOf baseImport a = t) : bucket baseImport t x = x := by
  unfold bucket
  rw [List.filter_eq_self]
  intro a ha
  simp [h a ha]

theorem bucket_eq_nil {baseImport : Str} {t u : importType} {x : List Str}
    (h : ∀ a ∈ x, a ≠ [] ∧ classOf baseImport a = u) (hne : u ≠ t) :
    bucket baseImport t x = [] := by
  unfold bucket
  rw [List.filter_eq_nil_iff]
  intro a ha
  simp [(h a ha).2, hne]

theorem bucket_sep (baseImport : Str) (t : importType) (c : Prop) [Decidable c] :
    bucket baseImport t (if c then [[]] else []) = [] := by
  split_ifs <;> simp [bucket]

theorem bucket_assemble {baseImport : Str} {S G P : List Str}
    (hS : ∀ a ∈ S, a ≠ [] ∧ classOf baseImport a = .standard)
    (hG : ∀ a ∈ G, a ≠ [] ∧ classOf baseImport a = .external)
    (hP : ∀ a ∈ P, a ≠ [] ∧ classOf baseImport a = .internal) :
    bucket baseImport .standard (assemble S G P) = S ∧
    bucket baseImport .external (assemble S G P) = G ∧
    bucket baseImport .internal (assemble S G P) = P := by
  rw [assemble_eq]
  simp only [bucket_append, bucket_sep, bucket_eq_self hS, bucket_eq_self hG, bucket_eq_self hP,
    bucket_eq_nil hS (t := .external) (by decide), bucket_eq_nil hS (t := .internal) (by decide),
    bucket_eq_nil hG (t := .standard) (by decide), bucket_eq_nil hG (t := .internal) (by decide),
    bucket_eq_nil hP (t := .standard) (by decide), bucket_eq_nil hP (t := .external) (by decide),
    List.append_nil, List.nil_append, and_self]

theorem canonical_idem (baseImport : Str) (x : List Str) :
    canonical baseImport (canonical baseImport x) = canonical baseImport x := by
  have h := @bucket_assemble baseImport
    (sortStrings (bucket baseImport .standard x))
    (sortStrings (bucket baseImport .external x))
    (sortStrings (bucket baseImport .internal x))
    (fun a ha => (mem_sorted_bucket ha).2) (fun a ha => (mem_sorted_bucket ha).2)
    (fun a ha => (mem_sorted_bucket ha).2)
  obtain ⟨h1, h2, h3⟩ := h
  unfold canonical
  rw [h1, h2, h3, sortStrings_of_sorted (sortStrings_sorted _),
    sortStrings_of_sorted (sortStrings_sorted _), sortStrings_of_sorted (sortStrings_sorted _)]

theorem hasCategory_iff (baseImport : Str) (x : List Str) (t : importType) :
    hasCategory baseImport x t = true ↔ bucket baseImport t x ≠ [] := by
  unfold hasCategory bucket
  rw [Ne, List.filter_eq_nil_iff]
  simp [getType_eq]

theorem nonEmptyCategories_eq (baseImport : Str) (x : List Str) :
    nonEmptyCategories baseImport x =
      nonEmptyCount (sortStrings (bucket baseImport .standard x))
        (sortStrings (bucket baseImport .external x))
        (sortStrings (bucket baseImport .internal x)) := by
  unfold nonEmptyCategories nonEmptyCount
  simp only [sortStrings_eq_nil]
  have h1 := hasCategory_iff baseImport x .standard
  have h2 := hasCategory_iff baseImport x .external
  have h3 := hasCategory_iff baseImport x .internal
  by_cases e1 : bucket baseImport .standard x = [] <;>
  by_cases e2 : bucket baseImport .external x = [] <;>
  by_cases e3 : bucket baseImport .internal x = [] <;>
    simp [e1, e2, e3] at h1 h2 h3 <;>
    simp [List.filter_cons, h1, h2, h3, e1, e2, e3]

theorem canonical_no_nil_groups (baseImport : Str) (t : importType) (x : List Str) :
    [] ∉ sortStrings (bucket baseImport t x) :=
  fun h => (mem_sorted_bucket h).2.1 rfl

theorem chain_of_forall {R : Str → Str → Prop} {l : List Str}
    (h : ∀ a ∈ l, ∀ b ∈ l, R a b) : l.Chain' R := by
  induction l with
  | nil => exact List.chain'_nil
  | cons a l ih =>
    rw [List.chain'_cons']
    exact ⟨fun y hy => h a (by simp) y (List.mem_cons_of_mem _ (List.mem_of_mem_head? hy)),
      ih (fun a ha b hb => h a (List.mem_cons_of_mem _ ha) b (List.mem_cons_of_mem _ hb))⟩

/-- Within a stretch of a chain that holds no placeholder, the order is monotone. -/
theorem run_of_chain {l : List Str}
    (h : l.Chain' (fun a b => a ≠ [] → b ≠ [] → strLe a b)) :
    ∀ (j i : Nat) (a b : Str), i ≤ j → l[i]? = some a → l[j]? = some b →
      (∀ k, i ≤ k → k ≤ j → l[k]? ≠ some []) → strLe a b := by
  intro j
  induction j with
  | zero =>
    intro i a b hij ha hb _
    obtain rfl : i = 0 := by omega
    rw [ha] at hb
    cases hb
    exact strLe_refl a
  | succ j ih =>
    intro i a b hij ha hb hk
    by_cases he : i = j + 1
    · subst he
      rw [ha] at hb
      cases hb
      exact strLe_refl a
    · have hjlt : j + 1 < l.length := (List.getElem?_eq_some_iff.1 hb).1
      have hb' : l[j + 1] = b := (List.getElem?_eq_some_iff.1 hb).2
      have hc : l[j]? = some l[j] := List.getElem?_eq_getElem (by omega)
      have h1 := ih i a l[j] (by omega) ha hc (fun k h1 h2 => hk k h1 (by omega))
      have h2 := List.chain'_iff_get.1 h j (by omega)
      simp only [List.get_eq_getElem] at h2
      have hcne : l[j] ≠ [] := fun e => hk j (by omega) (by omega) (by rw [hc, e])
      have hbne : l[j + 1] ≠ [] := fun e => hk (j + 1) (by omega) (by omega) (by rw [hb, ← hb', e])
      rw [← hb']
      exact strLe_trans _ _ _ h1 (h2 hcne hbne)

/-! ## Claims about `getType` and `sortImports` -/

/-- C2: the output of `sortImports` never starts or ends with a placeholder, never holds two
adjacent placeholders, holds exactly (number of non-empty categories - 1) placeholders (none
when every category is empty), and two adjacent non-placeholder entries have the same
category. -/
theorem sortImports_placeholders (baseImport : Str) (x : List Str) :
    ∃ out, sortImports baseImport x = .ok out ∧
      out.head? ≠ some [] ∧ out.getLast? ≠ some [] ∧
      out.Chain' (fun a b => ¬(a = [] ∧ b = [])) ∧
      out.count [] = nonEmptyCategories baseImport x - 1 ∧
      out.Chain' (fun a b => a ≠ [] → b ≠ [] → getType baseImport a = getType baseImport b) := by
  refine ⟨canonical baseImport x, sortImports_eq baseImport x, ?_, ?_, ?_, ?_, ?_⟩
  · exact head_assemble (canonical_no_nil_groups _ _ _) (canonical_no_nil_groups _ _ _)
      (canonical_no_nil_groups _ _ _)
  · exact getLast_assemble (canonical_no_nil_groups _ _ _) (canonical_no_nil_groups _ _ _)
      (canonical_no_nil_groups _ _ _)
  · have hg : ∀ t, ∀ a ∈ sortStrings (bucket baseImport t x),
        ∀ b ∈ sortStrings (bucket baseImport t x), ¬(a = [] ∧ b = []) :=
      fun t a ha _ _ h => (mem_sorted_bucket ha).2.1 h.1
    refine chain_assemble (chain_of_forall (hg _)) (chain_of_forall (hg _))
      (chain_of_forall (hg _)) ?_
    intro a ha
    simp only [List.mem_append] at ha
    have hne : a ≠ [] := by
      rcases ha with h | h | h <;> exact (mem_sorted_bucket h).2.1
    exact ⟨fun h => hne h.1, fun h => hne h.2⟩
  · rw [nonEmptyCategories_eq]
    exact count_assemble (canonical_no_nil_groups _ _ _) (canonical_no_nil_groups _ _ _)
      (canonical_no_nil_groups _ _ _)
  · have hg : ∀ t, ∀ a ∈ sortStrings (bucket baseImport t x),
        ∀ b ∈ sortStrings (bucket baseImport t x),
        a ≠ [] → b ≠ [] → getType baseImport a = getType baseImport b := by
      intro t a ha b hb _ _
      rw [getType_eq, getType_eq, (mem_sorted_bucket ha).2.2, (mem_sorted_bucket hb).2.2]
    refine chain_assemble (chain_of_forall (hg _)) (chain_of_forall (hg _))
      (chain_of_forall (hg _)) ?_
    intro a _
    exact ⟨fun _ h => absurd rfl h, fun h => absurd rfl h⟩

/-- C3: in the output of `sortImports` every entry of a category earlier in the order
standard, external, internal stands before every entry of a later category, and a category
with no member in the input has no entry in the output. -/
theorem sortImports_category_order (baseImport : Str) (x : List Str) :
    ∃ out, sortImports baseImport x = .ok out ∧
      (∀ (i j : Nat) (a b : Str) (s t : importType), out[i]? = some a → out[j]? = some b →
        a ≠ [] → b ≠ [] → getType baseImport a = .ok s → getType baseImport b = .ok t →
        rank s < rank t → i < j) ∧
      (∀ t, hasCategory baseImport x t = false →
        ∀ a ∈ out, a ≠ [] → getType baseImport a ≠ .ok t) := by
  refine ⟨canonical baseImport x, sortImports_eq baseImport x, ?_, ?_⟩
  · have hpw : (canonical baseImport x).Pairwise (fun a b => a ≠ [] → b ≠ [] →
        rank (classOf baseImport a) ≤ rank (classOf baseImport b)) := by
      have hg : ∀ t, (sortStrings (bucket baseImport t x)).Pairwise (fun a b => a ≠ [] → b ≠ [] →
          rank (classOf baseImport a) ≤ rank (classOf baseImport b)) := by
        intro t
        rw [List.pairwise_iff_forall_sublist]
        intro a b hab _ _
        have ha := (mem_sorted_bucket (hab.subset (by simp : a ∈ [a, b]))).2.2
        have hb := (mem_sorted_bucket (hab.subset (by simp : b ∈ [a, b]))).2.2
        rw [ha, hb]
      have hx : ∀ s t, rank s ≤ rank t → ∀ a ∈ sortStrings (bucket baseImport s x),
          ∀ b ∈ sortStrings (bucket baseImport t x), a ≠ [] → b ≠ [] →
          rank (classOf baseImport a) ≤ rank (classOf baseImport b) := by
        intro s t hst a ha b hb _ _
        rw [(mem_sorted_bucket ha).2.2, (mem_sorted_bucket hb).2.2]
        exact hst
      refine pairwise_assemble (hg _) (hg _) (hg _) (hx _ _ (by decide)) (hx _ _ (by decide))
        (hx _ _ (by decide)) ?_ (fun h => absurd rfl h)
      intro a _
      exact ⟨fun _ h => absurd rfl h, fun h => absurd rfl h⟩
    intro i j a b s t hi hj ha hb hs ht hlt
    rw [getType_eq] at hs ht
    cases hs
    cases ht
    by_contra hij
    rcases Nat.lt_or_ge j i with h | h
    · obtain ⟨hil, hia⟩ := List.getElem?_eq_some_iff.1 hi
      obtain ⟨hjl, hjb⟩ := List.getElem?_eq_some_iff.1 hj
      have := List.pairwise_iff_getElem.1 hpw j i hjl hil h
      rw [hia, hjb] at this
      have := this hb ha
      omega
    · obtain rfl : i = j := by omega
      rw [hi] at hj
      cases hj
      omega
  · intro t ht a ha hne
    rw [getType_eq]
    intro he
    cases he
    have hb : bucket baseImport (classOf baseImport a) x = [] := by
      by_contra hb
      rw [(hasCategory_iff baseImport x _).2 hb] at ht
      exact Bool.noConfusion ht
    have : a ∈ bucket baseImport (classOf baseImport a) x :=
      mem_bucket.2 ⟨mem_canonical ha hne, hne, rfl⟩
    rw [hb] at this
    exact List.not_mem_nil _ this

/-- C4: within every stretch of the output of `sortImports` that holds no placeholder, the
entries are non-decreasing in Go's byte-wise string order. -/
theorem sortImports_groups_sorted (baseImport : Str) (x : List Str) :
    ∃ out, sortImports baseImport x = .ok out ∧
      ∀ (i j : Nat) (a b : Str), i ≤ j → out[i]? = some a → out[j]? = some b →
        (∀ k, i ≤ k → k ≤ j → out[k]? ≠ some []) → strLe a b := by
  refine ⟨canonical baseImport x, sortImports_eq baseImport x, ?_⟩
  intro i j a b hij ha hb hk
  have hg : ∀ t, (sortStrings (bucket baseImport t x)).Chain'
      (fun a b => a ≠ [] → b ≠ [] → strLe a b) := by
    intro t
    exact (List.Pairwise.chain' (sortStrings_sorted _)).imp (fun {_ _} h _ _ => h)
  have hc : (canonical baseImport x).Chain' (fun a b => a ≠ [] → b ≠ [] → strLe a b) := by
    refine chain_assemble (hg _) (hg _) (hg _) ?_
    intro a _
    exact ⟨fun _ h => absurd rfl h, fun h => absurd rfl h⟩
  exact run_of_chain hc j i a b hij ha hb hk

/-- C5: `sortImports` is idempotent: applied to its own output it returns that output. -/
theorem sortImports_idempotent (baseImport : Str) (x : List Str) :
    ∃ y, sortImports baseImport x = .ok y ∧ sortImports baseImport y = .ok y := by
  refine ⟨canonical baseImport x, sortImports_eq baseImport x, ?_⟩
  rw [sortImports_eq, canonical_idem]

/-- C6: a path that has the base prefix as a string prefix is classified internal, and with
the empty base prefix every path is classified internal. -/
theorem getType_internal (baseImport p : Str) (h : baseImport <+: p) :
    getType baseImport p = .ok .internal ∧ getType [] p = .ok .internal := by
  rw [getType_eq, getType_eq]
  simp [classOf, h]

/-- Both examples of C6 evaluated: the match is not path-segment-aware and comes before the
dot heuristic. -/
theorem getType_internal_witness :
    (bytes "github.com/me/proj" <+: bytes "github.com/me/proj/x" ∧
      getType (bytes "github.com/me/proj") (bytes "github.com/me/proj/x") = .ok .internal) ∧
    (bytes "myorg" <+: bytes "myorgx/y" ∧
      getType (bytes "myorg") (bytes "myorgx/y") = .ok .internal) :=
  ⟨⟨⟨bytes "/x", by decide⟩,
      (getType_internal (bytes "github.com/me/proj") (bytes "github.com/me/proj/x")
        ⟨bytes "/x", by decide⟩).1⟩,
    ⟨⟨bytes "x/y", by decide⟩,
      (getType_internal (bytes "myorg") (bytes "myorgx/y") ⟨bytes "x/y", by decide⟩).1⟩⟩

/-- C7: a path that does not start with the base prefix is classified external exactly when
the part before its first `/` holds a `.`, and standard otherwise. -/
theorem getType_external_iff (baseImport p : Str) (h : ¬ baseImport <+: p) :
    (getType baseImport p = .ok .external ↔ 46 ∈ firstSegment p) ∧
    (getType baseImport p = .ok .standard ↔ 46 ∉ firstSegment p) := by
  rw [getType_eq]
  by_cases hd : 46 ∈ firstSegment p <;> simp [classOf, h, hd]

/-- A domain-qualified root is external; a dot after the first `/` leaves the path
standard. -/
theorem getType_external_iff_witness :
    (¬ bytes "myorg/" <+: bytes "example.com/a" ∧
      getType (bytes "myorg/") (bytes "example.com/a") = .ok .external) ∧
    (¬ bytes "myorg/" <+: bytes "net/http.v2" ∧
      getType (bytes "myorg/") (bytes "net/http.v2") = .ok .standard) :=
  ⟨⟨by decide,
      (getType_external_iff (bytes "myorg/") (bytes "example.com/a") (by decide)).1.2
        (by decide)⟩,
    ⟨by decide,
      (getType_external_iff (bytes "myorg/") (bytes "net/http.v2") (by decide)).2.2
        (by decide)⟩⟩

/-! ## The block check -/

theorem index_natCast {α : Type} (a : List α) (i : Nat) (h : i < a.length) :
    index a (i : Int) = .ok a[i] := by
  unfold index
  rw [if_neg (by omega)]
  simp [List.get?_eq_getElem?, List.getElem?_eq_getElem h]

/-- The comparison loop reports nothing exactly when the remaining canonical entries equal
the as-written entries from slot `i` on. -/
theorem compareLoop_eq (block : GenDecl) (all imports : List Str) :
    ∀ (rest : List Str) (i : Nat), i + rest.length ≤ imports.length →
      compareLoop block all imports rest (i : Int) =
        .ok (if rest = (imports.drop i).take rest.length then []
          else [shouldBeDiagnostic block all]) := by
  intro rest
  induction rest with
  | nil => intro i _; simp [compareLoop]
  | cons s rest ih =>
    intro i hi
    simp only [List.length_cons] at hi
    have hlt : i < imports.length := by omega
    rw [compareLoop, index_natCast imports i hlt]
    simp only [bind, Except.bind]
    have hd : imports.drop i = imports[i] :: imports.drop (i + 1) := List.drop_eq_getElem_cons hlt
    by_cases hs : s = imports[i]
    · have h2 := ih (i + 1) (by omega)
      rw [Nat.cast_add, Nat.cast_one] at h2
      subst hs
      rw [if_neg (by simp), h2, hd]
      simp only [List.length_cons, List.take_succ_cons, List.cons.injEq, true_and]
    · rw [if_pos hs, hd]
      simp only [List.length_cons, List.take_succ_cons, List.cons.injEq, hs, false_and,
        if_false]

theorem compareImports_eq (baseImport : Str) (block : GenDecl) (imports : List Str) :
    compareImports baseImport block imports =
      .ok (if canonical baseImport imports = imports then []
        else [shouldBeDiagnostic block (canonical baseImport imports)]) := by
  unfold compareImports
  rw [sortImports_eq]
  simp only [bind, Except.bind]
  by_cases hl : (canonical baseImport imports).length = imports.length
  · rw [if_neg (by simpa using hl)]
    have := compareLoop_eq block (canonical baseImport imports) imports
      (canonical baseImport imports) 0 (by omega)
    rw [Nat.cast_zero] at this
    rw [this, hl]
    simp
  · rw [if_pos hl, if_neg (fun h => hl (by rw [h]))]

theorem message_head (block : GenDecl) (sorted : List Str) :
    (shouldBeDiagnostic block sorted).message ≠ bytes "incorrect paren position" := by
  intro h
  have h2 := congrArg List.head? h
  have h3 : (shouldBeDiagnostic block sorted).message.head? = some 115 := rfl
  rw [h3] at h2
  revert h2
  decide

theorem fillImports_spec (o : Int) :
    ∀ (specs : List ImportSpec) (imports : List Str),
      (∀ s ∈ specs, 0 ≤ s.line - o - 1 ∧ s.line - o - 1 < imports.length) →
      ∃ r, fillImports o specs imports = .ok r ∧ r.length = imports.length ∧
        (∀ i : Nat, (∀ s ∈ specs, s.line - o - 1 ≠ i) → r[i]? = imports[i]?) ∧
        (specs.Pairwise (fun s t => s.line ≠ t.line) →
          ∀ s ∈ specs, r[(s.line - o - 1).toNat]? = some (extractImport s)) := by
  intro specs
  induction specs with
  | nil =>
    intro imports _
    exact ⟨imports, rfl, rfl, fun _ _ => rfl, fun _ s hs => absurd hs (List.not_mem_nil s)⟩
  | cons s rest ih =>
    intro imports h
    obtain ⟨h0, h1⟩ := h s (List.mem_cons_self _ _)
    have hset : setIndex imports (s.line - o - 1) (extractImport s) =
        .ok (imports.set (s.line - o - 1).toNat (extractImport s)) := by
      unfold setIndex
      rw [if_neg (by omega)]
    obtain ⟨r, hr, hlen, hun, hdist⟩ :=
      ih (imports.set (s.line - o - 1).toNat (extractImport s))
        (fun t ht => by
          rw [List.length_set]
          exact h t (List.mem_cons_of_mem _ ht))
    rw [List.length_set] at hlen
    have hk : (s.line - o - 1).toNat < imports.length := by omega
    refine ⟨r, ?_, hlen, ?_, ?_⟩
    · rw [fillImports, hset]
      exact hr
    · intro i hi
      rw [hun i (fun t ht => hi t (List.mem_cons_of_mem _ ht))]
      have hne : (s.line - o - 1).toNat ≠ i := by
        have := hi s (List.mem_cons_self _ _)
        omega
      rw [List.getElem?_set_ne hne]
    · intro hpw t ht
      rw [List.pairwise_cons] at hpw
      rcases List.mem_cons.1 ht with rfl | ht
      · rw [hun _ (fun u hu => by
          have h3 := hpw.1 u hu
          have h4 := (h u (List.mem_cons_of_mem _ hu)).1
          omega)]
        rw [List.getElem?_set_self hk]
      · exact hdist hpw.2 t ht

theorem buildImports_spec (block : GenDecl) (hsize : 1 ≤ block.rparenLine - block.lparenLine)
    (hin : ∀ s ∈ block.specs, block.lparenLine < s.line ∧ s.line < block.rparenLine) :
    ∃ imports, buildImports block = .ok imports ∧
      (imports.length : Int) = block.rparenLine - block.lparenLine - 1 ∧
      (∀ i : Nat, i < imports.length → (∀ s ∈ block.specs, s.line - block.lparenLine - 1 ≠ i) →
        imports[i]? = some []) ∧
      (block.specs.Pairwise (fun s t => s.line ≠ t.line) →
        ∀ s ∈ block.specs,
          imports[(s.line - block.lparenLine - 1).toNat]? = some (extractImport s)) := by
  have hmake : makeStrings (block.rparenLine - block.lparenLine - 1) =
      .ok (List.replicate (block.rparenLine - block.lparenLine - 1).toNat []) := by
    unfold makeStrings
    rw [if_neg (by omega)]
  obtain ⟨r, hr, hlen, hun, hdist⟩ := fillImports_spec block.lparenLine block.specs
    (List.replicate (block.rparenLine - block.lparenLine - 1).toNat [])
    (fun s hs => by
      have := hin s hs
      rw [List.length_replicate]
      omega)
  rw [List.length_replicate] at hlen
  refine ⟨r, ?_, by omega, ?_, hdist⟩
  · unfold buildImports
    simp only [hmake]
    exact hr
  · intro i hi hs
    rw [hun i hs, List.getElem?_replicate]
    rw [if_pos (by omega)]

/-- Entries on pairwise distinct lines strictly inside the block are at most as many as the
interior lines. -/
theorem specs_length_le (o c : Int) (specs : List ImportSpec)
    (hin : ∀ s ∈ specs, o < s.line ∧ s.line < c)
    (hdist : specs.Pairwise (fun s t => s.line ≠ t.line)) :
    (specs.length : Int) ≤ (c - o - 1).toNat := by
  have hnd : (specs.map (fun s => s.line)).Nodup := by
    rw [List.Nodup, List.pairwise_map]
    exact hdist
  have hsub : (specs.map (fun s => s.line)).toFinset ⊆ Finset.Ioo o c := by
    intro l hl
    rw [List.mem_toFinset, List.mem_map] at hl
    obtain ⟨s, hs, rfl⟩ := hl
    exact Finset.mem_Ioo.2 (hin s hs)
  have hcard := Finset.card_le_card hsub
  rw [List.toFinset_card_of_nodup hnd, List.length_map, Int.card_Ioo] at hcard
  exact_mod_cast hcard

/-! ## Claims about `checkImportOrder` and `findImportBlock` -/

theorem checkImportOrder_of_wellFormed (baseImport : Str) (block : GenDecl)
    (hparen : isValid block.lparen = true)
    (hwf : 1 ≤ block.rparenLine - block.lparenLine - block.specs.length) :
    checkImportOrder baseImport block =
      buildImports block >>= compareImports baseImport block := by
  unfold checkImportOrder
  rw [hparen]
  simp only [Bool.not_true, Bool.false_eq_true, if_false]
  rw [if_neg (by omega)]

/-- C1: for a parenthesized block that passes the malformed check and whose entries lie on
lines inside the block, `checkImportOrder` reports nothing exactly when the as-written
sequence equals `sortImports` of it. -/
theorem checkImportOrder_silent_iff (baseImport : Str) (block : GenDecl)
    (hparen : isValid block.lparen = true)
    (hwf : 1 ≤ block.rparenLine - block.lparenLine - block.specs.length)
    (hin : ∀ s ∈ block.specs, block.lparenLine < s.line ∧ s.line < block.rparenLine) :
    ∃ imports sorted ds, buildImports block = .ok imports ∧
      sortImports baseImport imports = .ok sorted ∧
      checkImportOrder baseImport block = .ok ds ∧
      (ds = [] ↔ imports = sorted) := by
  obtain ⟨imports, hb, -, -, -⟩ := buildImports_spec block (by omega) hin
  refine ⟨imports, canonical baseImport imports,
    if canonical baseImport imports = imports then []
      else [shouldBeDiagnostic block (canonical baseImport imports)],
    hb, sortImports_eq _ _, ?_, ?_⟩
  · rw [checkImportOrder_of_wellFormed baseImport block hparen hwf, hb]
    exact compareImports_eq baseImport block imports
  · by_cases h : canonical baseImport imports = imports
    · simp [h]
    · simp only [h, if_false]
      exact ⟨fun e => absurd e (by simp), fun e => absurd e.symm h⟩

/-- The already-correct block of the specification is reported silent. -/
theorem checkImportOrder_silent_iff_witness :
    buildImports canonicalBlock =
        .ok [bytes "fmt", [], bytes "github.com/x/y", [], bytes "myorg/proj/sub"] ∧
      checkImportOrder (bytes "myorg/") canonicalBlock = .ok [] := by
  obtain ⟨imports, sorted, ds, hb, hs, hc, hiff⟩ :=
    checkImportOrder_silent_iff (bytes "myorg/") canonicalBlock (by decide) (by decide)
      (by decide)
  have hb2 : buildImports canonicalBlock =
      .ok [bytes "fmt", [], bytes "github.com/x/y", [], bytes "myorg/proj/sub"] := by decide
  rw [hb2] at hb
  cases hb
  have hs2 : sortImports (bytes "myorg/")
      [bytes "fmt", [], bytes "github.com/x/y", [], bytes "myorg/proj/sub"] =
      .ok [bytes "fmt", [], bytes "github.com/x/y", [], bytes "myorg/proj/sub"] := by decide
  rw [hs2] at hs
  cases hs
  exact ⟨hb2, by rw [hc, hiff.2 rfl]⟩

/-- C8: for a parenthesized block, `checkImportOrder` reports "incorrect paren position"
exactly when `(closeLine - openLine) - count < 1`, and then it reports only that. -/
theorem checkImportOrder_paren (baseImport : Str) (block : GenDecl)
    (hparen : isValid block.lparen = true) :
    ((∃ ds, checkImportOrder baseImport block = .ok ds ∧
        ∃ d ∈ ds, d.message = bytes "incorrect paren position") ↔
      block.rparenLine - block.lparenLine - block.specs.length < 1) ∧
    (block.rparenLine - block.lparenLine - block.specs.length < 1 →
      checkImportOrder baseImport block = .ok [parenDiagnostic block]) := by
  have hmal : block.rparenLine - block.lparenLine - block.specs.length < 1 →
      checkImportOrder baseImport block = .ok [parenDiagnostic block] := by
    intro hlt
    unfold checkImportOrder
    rw [hparen]
    simp only [Bool.not_true, Bool.false_eq_true, if_false]
    rw [if_pos hlt]
  refine ⟨⟨?_, fun hlt => ⟨_, hmal hlt, parenDiagnostic block, List.mem_singleton.2 rfl, rfl⟩⟩,
    hmal⟩
  rintro ⟨ds, hds, d, hd, hmsg⟩
  by_contra hge
  rw [checkImportOrder_of_wellFormed baseImport block hparen (by omega)] at hds
  cases hb : buildImports block with
  | error e =>
    rw [hb] at hds
    cases hds
  | ok imports =>
    rw [hb] at hds
    have hc := compareImports_eq baseImport block imports
    simp only [bind, Except.bind] at hds
    rw [hc] at hds
    cases hds
    split_ifs at hd with h
    · exact List.not_mem_nil _ hd
    · rw [List.mem_singleton] at hd
      rw [hd] at hmsg
      exact message_head block _ hmsg

/-- Open line 10, close line 12 and three entries: only the paren diagnostic. -/
theorem checkImportOrder_paren_witness :
    isValid crowdedBlock.lparen = true ∧
      checkImportOrder (bytes "myorg/") crowdedBlock = .ok [parenDiagnostic crowdedBlock] :=
  ⟨by decide, (checkImportOrder_paren (bytes "myorg/") crowdedBlock (by decide)).2 (by decide)⟩

theorem collectBlocks_eq (fl : File) : collectBlocks fl = importDecls fl.genDecls := by
  unfold collectBlocks
  induction fl.genDecls with
  | nil => rfl
  | cons d rest ih =>
    cases hd : d.tok <;> simp [importDecls, List.filter_cons, hd, ih]

/-- C10: for a file with `k > 1` import declarations `findImportBlock` reports `k - 1`
diagnostics, the `i`-th being "multiple import" anchored at import declaration `i + 1`, and
nothing else. -/
theorem findImportBlock_multiple (baseImport : Str) (fl : File)
    (h : 1 < (importDecls fl.genDecls).length) :
    ∃ ds, findImportBlock baseImport fl = .ok ds ∧
      ds.length = (importDecls fl.genDecls).length - 1 ∧
      ∀ i : Nat, i + 1 < (importDecls fl.genDecls).length →
        ∃ b, (importDecls fl.genDecls)[i + 1]? = some b ∧
          ds[i]? = some { pos := b.pos, fin := b.fin, category := bytes "import",
                          message := bytes "multiple import" } := by
  rw [← collectBlocks_eq] at h ⊢
  refine ⟨reportMultiple (collectBlocks fl), ?_, ?_, ?_⟩
  · unfold findImportBlock
    simp only []
    rw [if_neg (by omega), if_pos h]
  · simp [reportMultiple]
  · intro i hi
    refine ⟨(collectBlocks fl)[i + 1], List.getElem?_eq_getElem hi, ?_⟩
    simp [reportMultiple, List.getElem?_drop, Nat.add_comm 1 i, List.getElem?_eq_getElem hi,
      multipleDiagnostic]

/-- A file with two import declarations and a `var` declaration between them: exactly one
diagnostic, anchored at the second import declaration. -/
theorem findImportBlock_multiple_witness :
    (importDecls twoBlockFile.genDecls).length = 2 ∧
      findImportBlock (bytes "myorg/") twoBlockFile =
        .ok [{ pos := 45, fin := 62, category := bytes "import",
               message := bytes "multiple import" }] := by
  obtain ⟨ds, hds, hlen, hi⟩ := findImportBlock_multiple (bytes "myorg/") twoBlockFile
    (by decide)
  obtain ⟨b, hb, hd⟩ := hi 0 (by decide)
  have hb2 : (importDecls twoBlockFile.genDecls)[0 + 1]? =
      some { tok := .IMPORT, pos := 45, fin := 62, lparen := 52, rparen := 61,
             lparenLine := 9, rparenLine := 11, specs := [⟨10, bytes "\"os\""⟩] } := by decide
  rw [hb2] at hb
  cases hb
  have hk : (importDecls twoBlockFile.genDecls).length = 2 := by decide
  rw [hk] at hlen
  refine ⟨hk, ?_⟩
  rw [hds]
  match ds, hlen, hd with
  | [d], _, hd =>
    simp only [List.getElem?_cons_zero, Option.some.injEq] at hd
    rw [hd]

/-- C9 as stated fails: for `import ()` written on one line the entries (there are none) lie
on distinct lines strictly between the parentheses, yet `checkImportOrder` builds no
as-written sequence (it reports "incorrect paren position"), the allocation on its own would
fault, and no sequence has the length `c - o - 1 = -1`. -/
theorem buildImports_slots_counterexample :
    isValid emptyOneLineBlock.lparen = true ∧
    (∀ s ∈ emptyOneLineBlock.specs,
      emptyOneLineBlock.lparenLine < s.line ∧ s.line < emptyOneLineBlock.rparenLine) ∧
    emptyOneLineBlock.specs.Pairwise (fun s t => s.line ≠ t.line) ∧
    checkImportOrder (bytes "myorg/") emptyOneLineBlock =
      .ok [parenDiagnostic emptyOneLineBlock] ∧
    buildImports emptyOneLineBlock = .error .makeLenOutOfRange ∧
    ¬ ∃ imports : List Str,
      (imports.length : Int) = emptyOneLineBlock.rparenLine - emptyOneLineBlock.lparenLine - 1 := by
  refine ⟨by decide, by decide, List.Pairwise.nil, by decide, by decide, ?_⟩
  rintro ⟨imports, h⟩
  have h2 : emptyOneLineBlock.rparenLine - emptyOneLineBlock.lparenLine - 1 = -1 := by decide
  omega

/-- C9 (amended): for a parenthesized block whose closing parenthesis is on a later line
than the opening one and whose entries lie on pairwise distinct lines strictly between them,
`checkImportOrder` passes the malformed check and builds an as-written sequence of length
`c - o - 1` that holds each entry's path at index `entryLine - o - 1`, an index within
bounds, and the empty placeholder at every other index. -/
theorem buildImports_slots (baseImport : Str) (block : GenDecl)
    (hparen : isValid block.lparen = true)
    (hoc : block.lparenLine < block.rparenLine)
    (hin : ∀ s ∈ block.specs, block.lparenLine < s.line ∧ s.line < block.rparenLine)
    (hdist : block.specs.Pairwise (fun s t => s.line ≠ t.line)) :
    ∃ imports, buildImports block = .ok imports ∧
      checkImportOrder baseImport block = compareImports baseImport block imports ∧
      (imports.length : Int) = block.rparenLine - block.lparenLine - 1 ∧
      (∀ s ∈ block.specs, 0 ≤ s.line - block.lparenLine - 1 ∧
        s.line - block.lparenLine - 1 < imports.length ∧
        imports[(s.line - block.lparenLine - 1).toNat]? = some (extractImport s)) ∧
      (∀ i : Nat, i < imports.length →
        (∀ s ∈ block.specs, s.line - block.lparenLine - 1 ≠ i) → imports[i]? = some []) := by
  obtain ⟨imports, hb, hlen, hun, hd⟩ := buildImports_spec block (by omega) hin
  have hcount := specs_length_le block.lparenLine block.rparenLine block.specs hin hdist
  refine ⟨imports, hb, ?_, hlen, ?_, hun⟩
  · rw [checkImportOrder_of_wellFormed baseImport block hparen (by omega), hb]
    rfl
  · intro s hs
    have := hin s hs
    exact ⟨by omega, by omega, hd hdist s hs⟩

/-- The slots of the already-correct block of the specification. -/
theorem buildImports_slots_witness :
    isValid canonicalBlock.lparen = true ∧
    canonicalBlock.lparenLine < canonicalBlock.rparenLine ∧
    ∃ imports, buildImports canonicalBlock = .ok imports ∧
      checkImportOrder (bytes "myorg/") canonicalBlock =
        compareImports (bytes "myorg/") canonicalBlock imports ∧
      (imports.length : Int) = canonicalBlock.rparenLine - canonicalBlock.lparenLine - 1 ∧
      (∀ s ∈ canonicalBlock.specs, 0 ≤ s.line - canonicalBlock.lparenLine - 1 ∧
        s.line - canonicalBlock.lparenLine - 1 < imports.length ∧
        imports[(s.line - canonicalBlock.lparenLine - 1).toNat]? = some (extractImport s)) ∧
      (∀ i : Nat, i < imports.length →
        (∀ s ∈ canonicalBlock.specs, s.line - canonicalBlock.lparenLine - 1 ≠ i) →
        imports[i]? = some []) :=
  ⟨by decide, by decide,
    buildImports_slots (bytes "myorg/") canonicalBlock (by decide) (by decide) (by decide)
      (by decide)⟩

/-! ## Permutation invariance of `sortImports` -/

theorem bucket_nonEmpty (baseImport : Str) (t : importType) (x : List Str) :
    bucket baseImport t (nonEmpty x) = bucket baseImport t x := by
  unfold bucket nonEmpty
  rw [List.filter_filter]
  congr 1
  funext p
  by_cases h : p = [] <;> simp [h]

theorem bucket_perm (baseImport : Str) (t : importType) {x y : List Str} (h : x.Perm y) :
    (bucket baseImport t x).Perm (bucket baseImport t y) :=
  h.filter _

theorem sortStrings_eq_of_perm {x y : List Str} (h : x.Perm y) :
    sortStrings x = sortStrings y :=
  List.eq_of_perm_of_sorted (((sortStrings_perm x).trans h).trans (sortStrings_perm y).symm)
    (sortStrings_sorted x) (sortStrings_sorted y)

theorem canonical_eq_of_perm (baseImport : Str) {x y : List Str}
    (h : (nonEmpty x).Perm (nonEmpty y)) : canonical baseImport x = canonical baseImport y := by
  unfold canonical
  rw [← bucket_nonEmpty baseImport .standard x, ← bucket_nonEmpty baseImport .external x,
    ← bucket_nonEmpty baseImport .internal x, ← bucket_nonEmpty baseImport .standard y,
    ← bucket_nonEmpty baseImport .external y, ← bucket_nonEmpty baseImport .internal y,
    sortStrings_eq_of_perm (bucket_perm baseImport .standard h),
    sortStrings_eq_of_perm (bucket_perm baseImport .external h),
    sortStrings_eq_of_perm (bucket_perm baseImport .internal h)]

theorem nonEmpty_idem (x : List Str) : nonEmpty (nonEmpty x) = nonEmpty x := by
  unfold nonEmpty
  rw [List.filter_filter]
  simp

theorem nonEmpty_assemble {S G P : List Str} (hS : [] ∉ S) (hG : [] ∉ G) (hP : [] ∉ P) :
    nonEmpty (assemble S G P) = S ++ (G ++ P) := by
  have hself : ∀ l : List Str, [] ∉ l → nonEmpty l = l := by
    intro l hl
    unfold nonEmpty
    rw [List.filter_eq_self]
    intro a ha
    simpa using fun e : a = [] => hl (e ▸ ha)
  have hsep : ∀ (c : Prop) [Decidable c], nonEmpty (if c then [[]] else []) = [] := by
    intro c _
    split_ifs <;> simp [nonEmpty]
  have happ : ∀ a b : List Str, nonEmpty (a ++ b) = nonEmpty a ++ nonEmpty b := by
    intro a b
    simp [nonEmpty]
  rw [assemble_eq]
  simp only [happ, hsep, hself S hS, hself G hG, hself P hP, List.nil_append]

theorem buckets_perm (baseImport : Str) (x : List Str) :
    (bucket baseImport .standard x ++
      (bucket baseImport .external x ++ bucket baseImport .internal x)).Perm (nonEmpty x) := by
  induction x with
  | nil => simp [bucket, nonEmpty]
  | cons p x ih =>
    by_cases hp : p = []
    · subst hp
      simpa [bucket_cons_nil, nonEmpty] using ih
    · have hne : nonEmpty (p :: x) = p :: nonEmpty x := by simp [nonEmpty, hp]
      rw [hne, bucket_cons _ _ _ _ hp, bucket_cons _ _ _ _ hp, bucket_cons _ _ _ _ hp]
      cases hc : classOf baseImport p
      · simp only [reduceCtorEq, if_false, if_true]
        refine List.Perm.trans ?_ (List.Perm.cons p ih)
        rw [← List.append_assoc]
        refine List.perm_middle.trans ?_
        rw [List.append_assoc]
      · simp only [reduceCtorEq, if_false, if_true]
        refine List.Perm.trans ?_ (List.Perm.cons p ih)
        exact List.perm_middle
      · simp only [reduceCtorEq, if_false, if_true]
        exact List.Perm.cons p ih

theorem length_eq_nonEmpty_add_count (l : List Str) :
    l.length = (nonEmpty l).length + l.count [] := by
  induction l with
  | nil => rfl
  | cons a l ih =>
    by_cases h : a = []
    · subst h
      have h2 : nonEmpty ([] :: l) = nonEmpty l := by simp [nonEmpty]
      rw [h2, List.count_cons_self, List.length_cons, ih]
      omega
    · have h2 : nonEmpty (a :: l) = a :: nonEmpty l := by simp [nonEmpty, h]
      rw [h2, List.count_cons_of_ne (fun e => h e.symm), List.length_cons, List.length_cons, ih]
      omega

theorem canonical_nonEmpty_perm (baseImport : Str) (x : List Str) :
    (nonEmpty (canonical baseImport x)).Perm (nonEmpty x) := by
  unfold canonical
  rw [nonEmpty_assemble (canonical_no_nil_groups _ _ _) (canonical_no_nil_groups _ _ _)
    (canonical_no_nil_groups _ _ _)]
  exact (((sortStrings_perm _).append ((sortStrings_perm _).append (sortStrings_perm _)))).trans
    (buckets_perm baseImport x)

/-! ## Further claims -/

theorem checkImportOrder_of_build (baseImport : Str) (block : GenDecl) (imports : List Str)
    (hparen : isValid block.lparen = true)
    (hwf : 1 ≤ block.rparenLine - block.lparenLine - block.specs.length)
    (hb : buildImports block = .ok imports) :
    checkImportOrder baseImport block =
      .ok (if canonical baseImport imports = imports then []
        else [shouldBeDiagnostic block (canonical baseImport imports)]) := by
  rw [checkImportOrder_of_wellFormed baseImport block hparen hwf, hb]
  exact compareImports_eq baseImport block imports

/-- C11: when the as-written sequence of a well-formed parenthesized block differs from the
canonical one, `checkImportOrder` reports exactly one diagnostic, whose message is
"should be \n" followed by the canonical sequence joined with newlines. -/
theorem checkImportOrder_should_be (baseImport : Str) (block : GenDecl) (imports : List Str)
    (hparen : isValid block.lparen = true)
    (hwf : 1 ≤ block.rparenLine - block.lparenLine - block.specs.length)
    (hb : buildImports block = .ok imports)
    (hne : sortImports baseImport imports ≠ .ok imports) :
    ∃ sorted, sortImports baseImport imports = .ok sorted ∧
      checkImportOrder baseImport block =
        .ok [{ pos := block.pos, fin := block.fin, category := bytes "import",
               message := bytes "should be \n" ++ join sorted [10] }] := by
  refine ⟨canonical baseImport imports, sortImports_eq _ _, ?_⟩
  rw [checkImportOrder_of_build baseImport block imports hparen hwf hb]
  rw [sortImports_eq] at hne
  rw [if_neg (fun h => hne (by rw [h]))]
  rfl

/-- The out-of-order block of the specification: one diagnostic, "should be \nfmt\nos". -/
theorem checkImportOrder_should_be_witness :
    buildImports outOfOrderBlock = .ok [bytes "os", bytes "fmt"] ∧
      checkImportOrder (bytes "myorg/") outOfOrderBlock =
        .ok [{ pos := 14, fin := 36, category := bytes "import",
               message := bytes "should be \nfmt\nos" }] := by
  obtain ⟨sorted, hs, hc⟩ := checkImportOrder_should_be (bytes "myorg/") outOfOrderBlock
    [bytes "os", bytes "fmt"] (by decide) (by decide) (by decide) (by decide)
  have hs2 : sortImports (bytes "myorg/") [bytes "os", bytes "fmt"] =
      .ok [bytes "fmt", bytes "os"] := by decide
  rw [hs2] at hs
  cases hs
  exact ⟨by decide, by rw [hc]; decide⟩

/-- C12: on a file whose import declaration starts `import ("fmt"`, then a blank line, then
the closing parenthesis, the malformed check passes (2 - 1 = 1) and the slot index is -1:
the analysis stops with an index-out-of-range fault and reports nothing. -/
theorem process_entry_on_open_line :
    isValid entryOnOpenLineBlock.lparen = true ∧
      1 ≤ entryOnOpenLineBlock.rparenLine - entryOnOpenLineBlock.lparenLine -
        entryOnOpenLineBlock.specs.length ∧
      process (bytes "myorg/") [entryOnOpenLineFile] = .error .indexOutOfRange := by
  decide

/-- On the hand-built `unclosedBlock`, which breaks the parser invariant `parsed`, the block
is not skipped but reported with "incorrect paren position": `checkImportOrder` reads the
validity of `Lparen` only. -/
theorem checkImportOrder_unclosed_handbuilt :
    parsed unclosedBlock = false ∧
      checkImportOrder (bytes "myorg/") unclosedBlock = .ok [parenDiagnostic unclosedBlock] := by
  decide

/-- C13: a declaration, as built by the parser, whose opening and closing delimiters are not
both valid (such as a single unparenthesized import) is skipped by `checkImportOrder`: no
diagnostic and no analysis, whatever its entries are. -/
theorem checkImportOrder_skip (baseImport : Str) (block : GenDecl)
    (hp : parsed block = true)
    (h : ¬ (isValid block.lparen = true ∧ isValid block.rparen = true)) :
    checkImportOrder baseImport block = .ok [] := by
  have hl : isValid block.lparen = false := by
    unfold parsed at hp
    rw [beq_iff_eq] at hp
    cases hv : isValid block.lparen
    · rfl
    · exact absurd ⟨hv, by rw [← hp, hv]⟩ h
  unfold checkImportOrder
  rw [hl]
  rfl

/-- The unparenthesized `import "fmt"` is skipped. -/
theorem checkImportOrder_skip_witness :
    parsed singleImport = true ∧
      ¬ (isValid singleImport.lparen = true ∧ isValid singleImport.rparen = true) ∧
      checkImportOrder (bytes "myorg/") singleImport = .ok [] :=
  ⟨by decide, by decide,
    checkImportOrder_skip (bytes "myorg/") singleImport (by decide) (by decide)⟩

/-- C14: the output of `sortImports` depends only on the multiset of non-placeholder
entries of its input; in particular removing the placeholders does not change it. -/
theorem sortImports_perm_invariant (baseImport : Str) (x y : List Str)
    (h : (nonEmpty x).Perm (nonEmpty y)) :
    (∃ out, sortImports baseImport x = .ok out ∧ sortImports baseImport y = .ok out) ∧
      sortImports baseImport (nonEmpty x) = sortImports baseImport x := by
  refine ⟨⟨canonical baseImport x, sortImports_eq _ _, ?_⟩, ?_⟩
  · rw [sortImports_eq, canonical_eq_of_perm baseImport h]
  · have hx : (nonEmpty (nonEmpty x)).Perm (nonEmpty x) := by rw [nonEmpty_idem]
    rw [sortImports_eq, sortImports_eq, canonical_eq_of_perm baseImport hx]

/-- Placeholders moved and entries reordered: same output. -/
theorem sortImports_perm_invariant_witness :
    (nonEmpty [bytes "os", [], bytes "a.b/c", bytes "fmt"]).Perm
        (nonEmpty [[], bytes "fmt", bytes "os", [], [], bytes "a.b/c"]) ∧
      sortImports (bytes "myorg/") [bytes "os", [], bytes "a.b/c", bytes "fmt"] =
        .ok [bytes "fmt", bytes "os", [], bytes "a.b/c"] ∧
      sortImports (bytes "myorg/") [[], bytes "fmt", bytes "os", [], [], bytes "a.b/c"] =
        .ok [bytes "fmt", bytes "os", [], bytes "a.b/c"] := by
  have hp : (nonEmpty [bytes "os", [], bytes "a.b/c", bytes "fmt"]).Perm
      (nonEmpty [[], bytes "fmt", bytes "os", [], [], bytes "a.b/c"]) := by decide
  obtain ⟨⟨out, h1, h2⟩, -⟩ := sortImports_perm_invariant (bytes "myorg/") _ _ hp
  have h3 : sortImports (bytes "myorg/") [bytes "os", [], bytes "a.b/c", bytes "fmt"] =
      .ok [bytes "fmt", bytes "os", [], bytes "a.b/c"] := by decide
  rw [h3] at h1
  cases h1
  exact ⟨hp, h3, h2⟩

theorem dropWhile_of_head {b : Nat} {p : Str} (h : p.head? ≠ some b) :
    p.dropWhile (· == b) = p := by
  cases p with
  | nil => rfl
  | cons a q =>
    have : a ≠ b := fun e => h (by rw [e]; rfl)
    simp [List.dropWhile_cons, this]

/-- For a double-quoted literal whose text between the quotes neither starts nor ends with a
quote byte, `extractImport` returns that text. -/
theorem extractImport_quoted (line : Int) (p : Str) (h1 : p.head? ≠ some 34)
    (h2 : p.getLast? ≠ some 34) : extractImport ⟨line, [34] ++ p ++ [34]⟩ = p := by
  unfold extractImport trim
  simp only [List.singleton_append, List.cons_append, List.dropWhile_cons, beq_self_eq_true,
    if_true, List.nil_append]
  have h3 : (p ++ [34]).dropWhile (· == 34) = if p = [] then [] else p ++ [34] := by
    cases p with
    | nil => simp
    | cons a q =>
      have : a ≠ 34 := fun e => h1 (by rw [e]; rfl)
      simp [List.dropWhile_cons, this]
  rw [h3]
  by_cases hp : p = []
  · subst hp
    simp
  · rw [if_neg hp, List.reverse_append, List.reverse_singleton, List.singleton_append,
      List.dropWhile_cons]
    simp only [beq_self_eq_true, if_true]
    rw [dropWhile_of_head (by rw [List.head?_reverse]; exact h2), List.reverse_reverse]

theorem bucket_ne_nil_of_mem {baseImport : Str} {x : List Str} {a : Str} (ha : a ∈ x)
    (hne : a ≠ []) : bucket baseImport (classOf baseImport a) x ≠ [] := by
  intro h
  have : a ∈ bucket baseImport (classOf baseImport a) x := mem_bucket.2 ⟨ha, hne, rfl⟩
  rw [h] at this
  exact List.not_mem_nil _ this

theorem canonical_length (baseImport : Str) (x : List Str) :
    (canonical baseImport x).length =
      (nonEmpty x).length + (nonEmptyCategories baseImport x - 1) := by
  rw [length_eq_nonEmpty_add_count, (canonical_nonEmpty_perm baseImport x).length_eq,
    nonEmptyCategories_eq]
  congr 1
  exact count_assemble (canonical_no_nil_groups _ _ _) (canonical_no_nil_groups _ _ _)
    (canonical_no_nil_groups _ _ _)

theorem two_le_nonEmptyCategories {baseImport : Str} {x : List Str} {a b : Str}
    (ha : a ∈ x) (hb : b ∈ x) (hane : a ≠ []) (hbne : b ≠ [])
    (hab : classOf baseImport a ≠ classOf baseImport b) :
    2 ≤ nonEmptyCategories baseImport x := by
  rw [nonEmptyCategories_eq]
  unfold nonEmptyCount
  simp only [sortStrings_eq_nil]
  have h1 := @bucket_ne_nil_of_mem baseImport x a ha hane
  have h2 := @bucket_ne_nil_of_mem baseImport x b hb hbne
  cases hca : classOf baseImport a <;> cases hcb : classOf baseImport b <;>
    rw [hca] at h1 hab <;> rw [hcb] at h2 hab <;>
    first
    | exact absurd rfl hab
    | (rw [if_neg h1, if_neg h2]; split_ifs <;> omega)

theorem nonEmpty_eq_self {l : List Str} (h : [] ∉ l) : nonEmpty l = l := by
  unfold nonEmpty
  rw [List.filter_eq_self]
  intro a ha
  simpa using fun e : a = [] => h (e ▸ ha)

/-- C15: when the as-written sequence of a well-formed parenthesized block holds no
placeholder and holds entries of two different categories, the canonical sequence is
strictly longer and `checkImportOrder` reports the "should be" diagnostic. -/
theorem checkImportOrder_missing_separator (baseImport : Str) (block : GenDecl)
    (imports : List Str) (a b : Str)
    (hparen : isValid block.lparen = true)
    (hwf : 1 ≤ block.rparenLine - block.lparenLine - block.specs.length)
    (hb : buildImports block = .ok imports)
    (hno : [] ∉ imports) (ha : a ∈ imports) (hb2 : b ∈ imports)
    (hab : getType baseImport a ≠ getType baseImport b) :
    ∃ sorted, sortImports baseImport imports = .ok sorted ∧
      imports.length < sorted.length ∧
      checkImportOrder baseImport block = .ok [shouldBeDiagnostic block sorted] := by
  have hlen : imports.length < (canonical baseImport imports).length := by
    rw [canonical_length, nonEmpty_eq_self hno]
    have := @two_le_nonEmptyCategories baseImport imports a b ha hb2
      (fun e => hno (e ▸ ha)) (fun e => hno (e ▸ hb2))
      (fun e => hab (by rw [getType_eq, getType_eq, e]))
    omega
  refine ⟨canonical baseImport imports, sortImports_eq _ _, hlen, ?_⟩
  rw [checkImportOrder_of_build baseImport block imports hparen hwf hb,
    if_neg (fun h => by rw [h] at hlen; exact Nat.lt_irrefl _ hlen)]

/-- The missing-separator block of the specification: as-written length 2, canonical
length 3. -/
theorem checkImportOrder_missing_separator_witness :
    buildImports missingSeparatorBlock = .ok [bytes "fmt", bytes "myorg/proj"] ∧
      sortImports (bytes "myorg/") [bytes "fmt", bytes "myorg/proj"] =
        .ok [bytes "fmt", [], bytes "myorg/proj"] ∧
      checkImportOrder (bytes "myorg/") missingSeparatorBlock =
        .ok [shouldBeDiagnostic missingSeparatorBlock [bytes "fmt", [], bytes "myorg/proj"]] := by
  obtain ⟨sorted, hs, -, hc⟩ := checkImportOrder_missing_separator (bytes "myorg/")
    missingSeparatorBlock [bytes "fmt", bytes "myorg/proj"] (bytes "fmt") (bytes "myorg/proj")
    (by decide) (by decide) (by decide) (by decide) (by decide) (by decide) (by decide)
  have hs2 : sortImports (bytes "myorg/") [bytes "fmt", bytes "myorg/proj"] =
      .ok [bytes "fmt", [], bytes "myorg/proj"] := by decide
  rw [hs2] at hs
  cases hs
  exact ⟨by decide, hs2, hc⟩

/-- C16: an input that is empty or holds only placeholders gives the empty sequence. -/
theorem sortImports_only_placeholders (baseImport : Str) (x : List Str)
    (h : ∀ p ∈ x, p = []) : sortImports baseImport x = .ok [] := by
  have hb : ∀ t, bucket baseImport t x = [] := by
    intro t
    unfold bucket
    rw [List.filter_eq_nil_iff]
    intro a ha
    simp [h a ha]
  rw [sortImports_eq]
  unfold canonical
  rw [hb, hb, hb]
  rfl

/-- The empty input and an input of three placeholders. -/
theorem sortImports_only_placeholders_witness :
    sortImports (bytes "myorg/") [] = .ok [] ∧
      sortImports (bytes "myorg/") [[], [], []] = .ok [] :=
  ⟨sortImports_only_placeholders (bytes "myorg/") [] (by decide),
    sortImports_only_placeholders (bytes "myorg/") [[], [], []] (by decide)⟩

/-- C17: `getType` is total: the access `parts[0]` is in range, and exactly one of the
three categories is returned. -/
theorem getType_total (baseImport p : Str) :
    (∃ p0, index (split p 47) 0 = .ok p0) ∧
      ∃ t, getType baseImport p = .ok t ∧
        (t = .internal ∨ t = .external ∨ t = .standard) ∧
        ∀ u, getType baseImport p = .ok u → u = t := by
  refine ⟨?_, classOf baseImport p, getType_eq _ _, ?_, ?_⟩
  · obtain ⟨rest, hr⟩ := split_eq_cons p
    exact ⟨firstSegment p, by rw [hr]; rfl⟩
  · cases classOf baseImport p <;> simp
  · intro u hu
    rw [getType_eq] at hu
    cases hu
    rfl

/-- C18: the non-placeholder entries of the output of `sortImports` are a permutation of
the non-placeholder entries of the input, and the output length is their number plus the
number of placeholders inserted (the number of non-empty categories minus one). -/
theorem sortImports_perm (baseImport : Str) (x : List Str) :
    ∃ out, sortImports baseImport x = .ok out ∧
      (nonEmpty out).Perm (nonEmpty x) ∧
      out.length = (nonEmpty x).length + out.count [] ∧
      out.count [] = nonEmptyCategories baseImport x - 1 := by
  refine ⟨canonical baseImport x, sortImports_eq _ _, canonical_nonEmpty_perm _ _, ?_, ?_⟩
  · rw [length_eq_nonEmpty_add_count, (canonical_nonEmpty_perm baseImport x).length_eq]
  · rw [nonEmptyCategories_eq]
    exact count_assemble (canonical_no_nil_groups _ _ _) (canonical_no_nil_groups _ _ _)
      (canonical_no_nil_groups _ _ _)

/-- C19 as stated fails: for `import ()` written on one line the entries (none) lie on
distinct lines strictly between the parentheses, yet `(c - o) - count = 0 < 1` and
"incorrect paren position" is reported. -/
theorem paren_unreachable_counterexample :
    isValid emptyOneLineBlock.lparen = true ∧
    (∀ s ∈ emptyOneLineBlock.specs,
      emptyOneLineBlock.lparenLine < s.line ∧ s.line < emptyOneLineBlock.rparenLine) ∧
    emptyOneLineBlock.specs.Pairwise (fun s t => s.line ≠ t.line) ∧
    ¬ 1 ≤ emptyOneLineBlock.rparenLine - emptyOneLineBlock.lparenLine -
      emptyOneLineBlock.specs.length ∧
    checkImportOrder (bytes "myorg/") emptyOneLineBlock =
      .ok [{ pos := 14, fin := 23, category := bytes "import",
             message := bytes "incorrect paren position" }] :=
  ⟨by decide, by decide, List.Pairwise.nil, by decide, by decide⟩

/-- C19 (amended): for a parenthesized block whose closing parenthesis is on a later line
than the opening one and whose entries lie on pairwise distinct lines strictly between
them, `(c - o) - count >= 1` holds and `checkImportOrder` returns without reporting
"incorrect paren position". -/
theorem paren_unreachable (baseImport : Str) (block : GenDecl)
    (hparen : isValid block.lparen = true)
    (hoc : block.lparenLine < block.rparenLine)
    (hin : ∀ s ∈ block.specs, block.lparenLine < s.line ∧ s.line < block.rparenLine)
    (hdist : block.specs.Pairwise (fun s t => s.line ≠ t.line)) :
    1 ≤ block.rparenLine - block.lparenLine - block.specs.length ∧
      ∃ ds, checkImportOrder baseImport block = .ok ds ∧
        ∀ d ∈ ds, d.message ≠ bytes "incorrect paren position" := by
  have hcount := specs_length_le block.lparenLine block.rparenLine block.specs hin hdist
  have hwf : 1 ≤ block.rparenLine - block.lparenLine - block.specs.length := by omega
  obtain ⟨imports, hb, -⟩ := buildImports_spec block (by omega) hin
  refine ⟨hwf, _, checkImportOrder_of_build baseImport block imports hparen hwf hb, ?_⟩
  intro d hd
  split_ifs at hd with h
  · exact absurd hd (List.not_mem_nil _)
  · rw [List.mem_singleton] at hd
    rw [hd]
    exact message_head block _

/-- The already-correct block of the specification passes the malformed check. -/
theorem paren_unreachable_witness :
    isValid canonicalBlock.lparen = true ∧
    canonicalBlock.lparenLine < canonicalBlock.rparenLine ∧
    1 ≤ canonicalBlock.rparenLine - canonicalBlock.lparenLine - canonicalBlock.specs.length ∧
      ∃ ds, checkImportOrder (bytes "myorg/") canonicalBlock = .ok ds ∧
        ∀ d ∈ ds, d.message ≠ bytes "incorrect paren position" :=
  ⟨by decide, by decide,
    paren_unreachable (bytes "myorg/") canonicalBlock (by decide) (by decide) (by decide)
      (by decide)⟩

/-- C20: for an entry written with a raw (back-quoted) literal `extractImport` leaves the
back quotes in place, so the path is not the one written between the delimiters and a
project import is no longer classified internal. -/
theorem extractImport_raw :
    extractImport rawSpec = [96] ++ bytes "myorg/proj" ++ [96] ∧
      extractImport rawSpec ≠ bytes "myorg/proj" ∧
      getType (bytes "myorg/") (extractImport rawSpec) = .ok .standard ∧
      getType (bytes "myorg/") (bytes "myorg/proj") = .ok .internal := by
  decide

end Imporder
